/-
Verification of the react-look style-resolution engine.

The JavaScript source is shallowly embedded: each definition below translates
one function (or one clearly delimited block) of the source.  JavaScript
objects are modelled as insertion-ordered association lists, JavaScript
primitive values as the inductive `JSV`, and code that can raise a runtime
exception (TypeError / ReferenceError) returns `Except JSErr`.
-/
import Mathlib

set_option autoImplicit false

namespace ReactLook

/-! ## JavaScript primitive values and truthiness -/

/-- A JavaScript primitive value as it appears in `element.key` / `element.ref`
and in the interaction-state store. -/
inductive JSV where
  | str (s : String)
  | num (n : Int)
  | boolV (b : Bool)
  | nul
  | undef
deriving DecidableEq, Repr

/-- JavaScript truthiness of a `JSV` (`''`, `0`, `false`, `null`, `undefined`
are falsy). -/
def truthy : JSV → Bool
  | .str s => s ≠ ""
  | .num n => n ≠ 0
  | .boolV b => b
  | .nul => false
  | .undef => false

/-- JavaScript `a || b`: the first operand if it is truthy, otherwise the
second. -/
def jsOr (a b : JSV) : JSV := if truthy a then a else b

/-- The `key` / `ref` props of an element, as read by the pseudo-class
handlers and by `resolveLook`. -/
structure Elem where
  key : JSV
  ref : JSV
deriving DecidableEq, Repr

/-- `element.key || element.ref || defaultKey` — the element identity key used
for all per-node interaction state (source: the `let key = ...` line of the
`active`, `hover` and `focus` handlers, and the same expression inside
`resolveLook`). -/
def elemKey (e : Elem) : JSV := jsOr e.key (jsOr e.ref (.str "root"))

/-- A `JSV` is defined when it is neither `null` nor `undefined`. -/
def definedJS (v : JSV) : Prop := v ≠ JSV.nul ∧ v ≠ JSV.undef

instance (v : JSV) : Decidable (definedJS v) := by
  unfold definedJS; infer_instance

/-! ## Interaction state store (hover / active / focus)

The store itself lives in `api/State`, which is not part of the sources under
verification; it is modelled from the spec. -/

/-- Modelled from the spec: the Interaction State Store (`api/State` is not
under `src/`).  `getState(name, owner, key) -> boolean`, default `false` if
absent; `setState(name, value, owner, key)` records the boolean.  The owner
dimension is represented by the store value itself: each owner component holds
one store, so entries are keyed by `(state-name, element-key)`. -/
def Store := List ((String × JSV) × Bool)

/-- Modelled from the spec: `State.setState(name, value, owner, key)` — update
the entry for `(name, key)` in place, or append it if absent. -/
def setState (name : String) (value : Bool) (key : JSV) : Store → Store
  | [] => [((name, key), value)]
  | ((n, k), b) :: rest =>
    if n = name ∧ k = key then ((n, k), value) :: rest
    else ((n, k), b) :: setState name value key rest

/-- Modelled from the spec: `State.getState(name, owner, key)` — the stored
boolean, `false` if no entry exists. -/
def getState (name : String) (key : JSV) : Store → Bool
  | [] => false
  | ((n, k), b) :: rest => if n = name ∧ k = key then b else getState name key rest

/-- The callback closed over by a registered listener.  `setCB name value` is
the body `() => State.setState(name, value, Component, key)` used by the
`hover` and `focus` handlers; `activeDownCB` is the `onMouseDown` body of the
`active` handler, which also records the key in `Component._lastActiveElements`. -/
inductive CB where
  | setCB (name : String) (value : Bool)
  | activeDownCB
deriving DecidableEq, Repr

/-- Modelled from the spec: `createListener(Component, element, key, event, cb)`
(`api/Listener` is not under `src/`) returns the handler it injects into the
outgoing props; it is represented by the record of its key, event name and
callback.  The reference-level deduplication of the registry is not needed by
the claims settled here and is not modelled. -/
structure Listener where
  key : JSV
  event : String
  cb : CB
deriving DecidableEq, Repr

/-- The per-owner mutable state touched by the pseudo-class handlers: the
interaction state store and `Component._lastActiveElements`. -/
structure Owner where
  store : Store
  lastActiveElements : List JSV

/-- An owner component directly after construction: empty store and an empty
`_lastActiveElements` list. -/
def Owner.init : Owner := ⟨[], []⟩

/-- Firing a registered listener: run its callback against the owner state
(source: the arrow-function bodies passed to `createListener` in the `active`,
`hover` and `focus` handlers). -/
def runCB (l : Listener) (o : Owner) : Owner :=
  match l.cb with
  | .setCB n v => { o with store := setState n v l.key o.store }
  | .activeDownCB =>
    { o with
      store := setState "active" true l.key o.store,
      lastActiveElements := o.lastActiveElements ++ [l.key] }

/-- The outgoing props that the pseudo-class handlers mutate: the event
handler slots they assign. -/
structure HProps where
  onMouseDown : Option Listener := none
  onMouseEnter : Option Listener := none
  onMouseLeave : Option Listener := none
  onFocus : Option Listener := none
  onBlur : Option Listener := none
deriving DecidableEq, Repr

/-- One iteration count of the `while` loop of `Component._onMouseUp`.  Each
iteration reads `_lastActiveElements[0]`, sets its `'active'` state to
`false`, and then calls `Array.prototype.pop`, which removes the **last**
element (the `key` argument given to `pop` in the source is ignored by
JavaScript).  The loop runs while the list is non-empty; since every
iteration removes exactly one element, `lastActiveElements.length` iterations
always suffice, which justifies the fuel. -/
def onMouseUpLoop : Nat → Owner → Owner
  | 0, o => o
  | fuel + 1, o =>
    match o.lastActiveElements with
    | [] => o
    | k :: _ =>
      onMouseUpLoop fuel
        { store := setState "active" false k o.store,
          lastActiveElements := o.lastActiveElements.dropLast }

/-- `Component._onMouseUp` — the global mouse-up release handler installed by
the `active` pseudo-class handler. -/
def onMouseUp (o : Owner) : Owner := onMouseUpLoop o.lastActiveElements.length o

/-- The `onMouseDown` callback created by the `active` handler for `element`:
`State.setState('active', true, Component, key)` followed by
`Component._lastActiveElements.push(key)`. -/
def activeMouseDown (element : Elem) (o : Owner) : Owner :=
  runCB ⟨elemKey element, "onMouseDown", .activeDownCB⟩ o

/-- The `active` pseudo-class handler (source `part_001`): assigns the
`onMouseDown` listener into the outgoing props and returns the style fragment
iff the stored `'active'` state for the element key is currently `true`
(`return State.getState('active', Component, key) ? styles : false`).  The
lazy installation of `Component._onMouseUp` is represented by `onMouseUp`
above. -/
def active (styles : List (String × String)) (o : Owner) (element : Elem)
    (newProps : HProps) : HProps × Option (List (String × String)) :=
  let key := elemKey element
  let p := { newProps with onMouseDown := some ⟨key, "onMouseDown", .activeDownCB⟩ }
  (p, if getState "active" key o.store then some styles else none)

/-- The `hover` pseudo-class handler (source `part_001`): assigns the
`onMouseEnter` / `onMouseLeave` listeners (whose callbacks set resp. clear the
`'hover'` state for the element key) into the outgoing props, and returns the
style fragment iff the stored `'hover'` state is currently `true`. -/
def hover (styles : List (String × String)) (o : Owner) (element : Elem)
    (newProps : HProps) : HProps × Option (List (String × String)) :=
  let key := elemKey element
  let p := { newProps with
             onMouseEnter := some ⟨key, "onMouseEnter", .setCB "hover" true⟩,
             onMouseLeave := some ⟨key, "onMouseLeave", .setCB "hover" false⟩ }
  (p, if getState "hover" key o.store then some styles else none)

/-- The `focus` pseudo-class handler (source `part_001`). -/
def focus (styles : List (String × String)) (o : Owner) (element : Elem)
    (newProps : HProps) : HProps × Option (List (String × String)) :=
  let key := elemKey element
  let p := { newProps with
             onFocus := some ⟨key, "onFocus", .setCB "focus" true⟩,
             onBlur := some ⟨key, "onBlur", .setCB "focus" false⟩ }
  (p, if getState "focus" key o.store then some styles else none)

/-! ## Children resolution inside `resolveLook`

Translation of the `oldChildren.forEach` block of `resolveLook` together with
`generateIndexMap`, `generateTypeMap` and `getChildType`. -/

/-- A JavaScript runtime exception raised while resolving. -/
inductive JSErr where
  /-- Property access on `undefined` / `null`, or calling a missing method. -/
  | typeError
  /-- Reading an undeclared identifier. -/
  | referenceError
deriving DecidableEq, Repr

/-- A child entry of a `props.children` array: either a React element (whose
resolved kind is a string) or a primitive / empty child. -/
inductive JSChild where
  | elem (kind : String)
  | text (s : String)
  | num (n : Int)
  | boolC (b : Bool)
  | nul
  | undef
deriving DecidableEq, Repr

/-- JavaScript truthiness of a child value (`if (child)` in the loop). -/
def truthyChild : JSChild → Bool
  | .elem _ => true
  | .text s => s ≠ ""
  | .num n => n ≠ 0
  | .boolC b => b
  | .nul => false
  | .undef => false

/-- `getChildType(child)`: reads `child.type`.  On `undefined` or `null` the
property access itself throws a TypeError; on other primitives `child.type`
is `undefined` (represented as `none`); on an element it is the element's
kind (a function child's `displayName` resolution collapses to its kind
string in this model). -/
def getChildType : JSChild → Except JSErr (Option String)
  | .undef => .error .typeError
  | .nul => .error .typeError
  | .elem k => .ok (some k)
  | _ => .ok none

/-- The mutable index map object: JavaScript-object lookup from a type key to
a count, `none` when the key is absent. -/
def IndexMap := Option String → Option Nat

/-- The empty index map (`let indexMap = {}`). -/
def emptyIM : IndexMap := fun _ => none

/-- `generateIndexMap(child, indexMap)`: increment the entry for the child's
type, creating it at `1` when absent. -/
def generateIndexMap (child : JSChild) (m : IndexMap) : Except JSErr IndexMap := do
  let t ← getChildType child
  match m t with
  | some n => pure (fun u => if u = t then some (n + 1) else m u)
  | none => pure (fun u => if u = t then some 1 else m u)

/-- `generateTypeMap(children)`: fold `generateIndexMap` over every child of
the array (including falsy children — the source calls it on each entry of
`oldChildren` unconditionally, so a `null` / `undefined` entry throws). -/
def generateTypeMap (children : List JSChild) : Except JSErr IndexMap :=
  children.foldlM (fun m c => generateIndexMap c m) emptyIM

/-- The `childIndex` record built for each truthy child and passed to the
recursive `resolveLook` call.  The spec names the last field
`typeIndexCount`; the source field is `typeIndexLength`.  The two lookups are
`Option`-valued because JavaScript object access yields `undefined` for a
missing key. -/
structure ChildIndex where
  index : Nat
  length : Nat
  typeIndex : Option Nat
  typeIndexLength : Option Nat
deriving DecidableEq, Repr

/-- The entry pushed onto `newChildren` for one input child: `resolved c ci`
records the recursive call `resolveLook(Component, c, ci)` (the claims settled
here quantify over the metadata passed to that call, so the call is recorded
rather than expanded); `kept c` is a falsy child pushed unresolved. -/
inductive OutChild where
  | resolved (c : JSChild) (ci : ChildIndex)
  | kept (c : JSChild)
deriving DecidableEq, Repr

/-- The body of `oldChildren.forEach((child, index) => ...)`.  For a truthy
child the index map is updated first, then the `childIndex` metadata is built
(`index: index + 1`, `length: oldChildren.length`, the running
`indexMap[childType]` and the total `typeMap[childType]`) and the recursive
resolution is pushed.  A falsy child that is not `undefined` is pushed
unresolved.  For an `undefined` child the source's diagnostic
`console.warn('There are children ...', oldChidren)` reads the undeclared
identifier `oldChidren` (the declared variable is `oldChildren`), which
raises a ReferenceError. -/
def childLoop (len : Nat) (typeMap : IndexMap) :
    List JSChild → Nat → IndexMap → Except JSErr (List OutChild)
  | [], _, _ => .ok []
  | child :: rest, index, indexMap =>
    if truthyChild child then do
      let indexMap' ← generateIndexMap child indexMap
      let childType ← getChildType child
      let ci : ChildIndex :=
        { index := index + 1, length := len,
          typeIndex := indexMap' childType,
          typeIndexLength := typeMap childType }
      let tail ← childLoop len typeMap rest (index + 1) indexMap'
      pure (.resolved child ci :: tail)
    else
      match child with
      | .undef => .error .referenceError
      | _ => do
        let tail ← childLoop len typeMap rest (index + 1) indexMap
        pure (.kept child :: tail)

/-- The whole children branch of `resolveLook` for an array of children:
`generateTypeMap` over all siblings first, then the `forEach` loop. -/
def resolveChildren (children : List JSChild) : Except JSErr (List OutChild) := do
  let typeMap ← generateTypeMap children
  childLoop children.length typeMap children 0 emptyIM

/-- Proof-side specification of the index map that `generateIndexMap` builds
over a list of element kinds: each kind maps to its occurrence count, absent
when the count is zero. -/
def countMap (ks : List String) : IndexMap := fun t =>
  match t with
  | some k => if ks.count k = 0 then none else some (ks.count k)
  | none => none

/-- Proof-side specification of the output of the children loop on a list of
element children: at running position `i`, with the already-processed kinds
`acc`, each child is recorded with its 1-based `index`, the sibling count,
the 1-based running count of its kind, and the total count of its kind. -/
def elemOuts (len : Nat) (all : List String) : Nat → List String → List String → List OutChild
  | _, _, [] => []
  | i, acc, k :: rest =>
    .resolved (.elem k)
      { index := i + 1, length := len,
        typeIndex := some ((acc ++ [k]).count k),
        typeIndexLength := countMap all (some k) }
      :: elemOuts len all (i + 1) (acc ++ [k]) rest

/-! ## JavaScript string primitives

`String.prototype.split` (for a non-empty literal separator) is embedded as a
leftmost, non-overlapping split on character lists; `indexOf(sub) > -1` and
`split(sep)` for the engine's string manipulation are derived from it. -/

/-- Text content, as a character list. -/
abbrev Str := List Char

/-- Fuel-driven worker for `splitL`.  Each step either consumes the separator
(when it is a prefix of the remainder) or one character, so `cs.length` fuel
always suffices; the fuel only makes the recursion structural. -/
def splitLF (p : Str) : Nat → Str → List Str
  | 0, cs => [cs]
  | fuel + 1, cs =>
    if p.isPrefixOf cs ∧ p ≠ [] then
      [] :: splitLF p fuel (cs.drop p.length)
    else
      match cs with
      | [] => [[]]
      | c :: rest =>
        match splitLF p fuel rest with
        | [] => [[c]]
        | h :: t => (c :: h) :: t

/-- JavaScript `text.split(p)` for a non-empty literal separator `p`:
leftmost non-overlapping occurrences of `p` delimit the parts. -/
def splitL (p cs : Str) : List Str := splitLF p cs.length cs

/-- JavaScript `s.split(sep)` on `String`s. -/
def jsSplit (s sep : String) : List String :=
  (splitL sep.toList s.toList).map String.mk

/-- `s.indexOf(sub) > -1` for a non-empty literal `sub`. -/
def jsContains (s sub : String) : Bool := 1 < (jsSplit s sub).length

/-! ## Style resolution (`resolveStyle`, look merge, pseudo elements)

Translation of the style pipeline of `resolveLook`: `resolveStyle` over the
nested rule object, the merge of the selected looks, the final merge of the
explicit `style` prop, and the `before` / `after` pseudo-element block. -/

/-- The children of a synthesized pseudo-element `span`: plain text content,
or the one-element array holding the `img` node built by
`createPseudoImage`. -/
inductive PChildren where
  | text (s : String)
  | imgArr (src : String)
deriving DecidableEq, Repr

/-- A value stored in a resolved style map: `undefR` is JavaScript
`undefined` (the result of reading an absent key), `prim` a primitive style
value, and `spanEl st ch` the `React.createElement('span', {style: st}, ch)`
node built by `addPseudoElement`. -/
inductive RVal where
  | undefR
  | prim (v : String)
  | spanEl (style : List (String × RVal)) (children : PChildren)

/-- A resolved style object: an insertion-ordered association list, as a
JavaScript object. -/
abbrev StyleMap := List (String × RVal)

/-- JavaScript property read on a style object: the stored value, or
`undefined` when the key is absent. -/
def getSM : StyleMap → String → RVal
  | [], _ => .undefR
  | (k, v) :: rest, key => if k = key then v else getSM rest key

/-- `Option`-valued lookup (key present or not), used to state theorems about
keys that are actually set. -/
def lookupSM : StyleMap → String → Option RVal
  | [], _ => none
  | (k, v) :: rest, key => if k = key then some v else lookupSM rest key

/-- JavaScript property write `obj[key] = v`: overwrite in place, or append
when the key is new. -/
def setSM : StyleMap → String → RVal → StyleMap
  | [], key, v => [(key, v)]
  | (k, w) :: rest, key, v =>
    if k = key then (key, v) :: rest else (k, w) :: setSM rest key v

/-- JavaScript `delete obj[key]`. -/
def removeSM : StyleMap → String → StyleMap
  | [], _ => []
  | (k, w) :: rest, key => if k = key then rest else (k, w) :: removeSM rest key

/-- Modelled from the spec: the external style merge collaborator
(`assign-styles`, outside this repository) — "style-object shallow-merge
utilities": every own key of the source is written into the target in order,
the source winning per key. -/
def assignSM (target source : StyleMap) : StyleMap :=
  source.foldl (fun acc kv => setSM acc kv.1 kv.2) target

/-- JavaScript truthiness of a style-map value. -/
def truthyR : RVal → Bool
  | .undefR => false
  | .prim v => v ≠ ""
  | .spanEl _ _ => true

/-- JavaScript string coercion of a style value (only `prim` values ever
reach the places where this is used; see `addPseudoElement`). -/
def rvalStr : RVal → String
  | .prim v => v
  | .undefR => "undefined"
  | .spanEl _ _ => "[object Object]"

/-- Modelled from the spec: `Validator.isPseudoElement` (`utils/validator` is
not under `src/`): a condition name denotes a pseudo element when it follows
the `before` / `after` naming convention. -/
def isPseudoElement (property : String) : Bool :=
  jsContains property "before" || jsContains property "after"

/-- `createPseudoImage(content)`: an `img` node whose `src` is
`content.split('url(')[1].substr(0, content.length - 5)`. -/
def createPseudoImage (content : String) : PChildren :=
  .imgArr (((jsSplit content "url(").getD 1 "").take (content.length - 5))

/-- `addPseudoElement(styles)`: pull the truthy `content` entry out of the
resolved map (deleting it), then build the `span` carrying the remaining
properties as its style and the content as text — or as the
`createPseudoImage` child when the content refers to a `url(...)`. -/
def addPseudoElement (styles : StyleMap) : RVal :=
  let c0 := getSM styles "content"
  let content := if truthyR c0 then rvalStr c0 else ""
  let styles' := if truthyR c0 then removeSM styles "content" else styles
  if jsContains content "url(" then .spanEl styles' (createPseudoImage content)
  else .spanEl styles' (.text content)

/-- The outgoing props touched by `resolveStyle`: only the `className`
accumulation matters here (absent or present string). -/
structure OutProps where
  className : Option String := none
deriving DecidableEq, Repr

/-- `resolveClassName(css, newProps)`: start the `className` when it is
falsy (absent or empty), otherwise append with a space. -/
def resolveClassName (css : String) (p : OutProps) : OutProps :=
  match p.className with
  | none => { p with className := some css }
  | some c => if c = "" then { p with className := some css }
              else { p with className := some (c ++ " " ++ css) }

/-- A value inside a look rule object: a plain style value, or a nested
object (a conditional sub-rule, or a pseudo-element body). -/
inductive RuleVal where
  | plain (v : String)
  | nested (rule : List (String × RuleVal))

/-- A look rule: a JavaScript object, insertion ordered. -/
abbrev StyleRule := List (String × RuleVal)

/-- Object lookup on a rule. -/
def getRule : StyleRule → String → Option RuleVal
  | [], _ => none
  | (k, v) :: rest, key => if k = key then some v else getRule rest key

/-- `delete` on a rule object. -/
def removeRule : StyleRule → String → StyleRule
  | [], _ => []
  | (k, v) :: rest, key => if k = key then rest else (k, v) :: removeRule rest key

/-- JavaScript string coercion of a rule value (the `css` entry is a string
in every meaningful rule). -/
def ruleValStr : RuleVal → String
  | .plain v => v
  | .nested _ => "[object Object]"

theorem sizeOf_removeRule (rule : StyleRule) (key : String) :
    sizeOf (removeRule rule key) ≤ sizeOf rule := by
  induction rule with
  | nil => simp [removeRule]
  | cons hd tl ih =>
    obtain ⟨k, v⟩ := hd
    by_cases h : k = key
    · simp only [removeRule, if_pos h, List.cons.sizeOf_spec]
      omega
    · simp only [removeRule, if_neg h, List.cons.sizeOf_spec]
      omega

/-- The `css` pre-step at the head of `resolveStyle`: when the rule object
has a `css` entry, append it to the outgoing `className` and delete it from
the rule before the property iteration. -/
def cssPre (r : StyleRule) (pr : OutProps) : StyleRule × OutProps :=
  match getRule r "css" with
  | some cssv => (removeRule r "css", resolveClassName (ruleValStr cssv) pr)
  | none => (r, pr)

theorem sizeOf_cssPre_fst (r : StyleRule) (pr : OutProps) :
    sizeOf (cssPre r pr).1 ≤ sizeOf r := by
  unfold cssPre
  split
  · exact sizeOf_removeRule r "css"
  · simp

/-- The `_Object.each(styles, (property, value) => ...)` loop of
`resolveStyle`, translated together with the `css` pre-step of the recursive
call (the body of `resolveStyle` is inlined at the one nested call site so
that the recursion is a single function).  `ev` is the external
`evaluateExpression` oracle (`utils/evaluator` is outside the verified
sources; the theorems below hold for every oracle).  For each entry in
object order: a non-empty object value whose condition evaluates truthy is
recursively resolved and either routed to the `before` / `after` slot
(`newStyle[property.indexOf('before') > -1 ? 'before' : 'after'] =
addPseudoElement(resolved)`) or merged over the accumulator
(`newStyle = assign(newStyle, resolved)`); a plain value is written directly
(`newStyle[property] = value`). -/
def eachEntries (ev : String → Bool) :
    List (String × RuleVal) → StyleMap → OutProps → StyleMap × OutProps
  | [], st, pr => (st, pr)
  | (property, .plain v) :: rest, st, pr =>
    eachEntries ev rest (setSM st property (.prim v)) pr
  | (property, .nested r) :: rest, st, pr =>
    if r.isEmpty then eachEntries ev rest st pr
    else if ev property then
      let inner := eachEntries ev (cssPre r pr).1 [] (cssPre r pr).2
      if isPseudoElement property then
        eachEntries ev rest
          (setSM st (if jsContains property "before" then "before" else "after")
            (addPseudoElement inner.1)) inner.2
      else
        eachEntries ev rest (assignSM st inner.1) inner.2
    else eachEntries ev rest st pr
termination_by entries => sizeOf entries
decreasing_by
  all_goals simp only [List.cons.sizeOf_spec, Prod.mk.sizeOf_spec,
    RuleVal.nested.sizeOf_spec, RuleVal.plain.sizeOf_spec]
  all_goals first
    | omega
    | (have h := sizeOf_cssPre_fst r pr; omega)

/-- `resolveStyle(Component, element, styles, newProps, ...)`: handle a
top-level `css` entry (append it to the outgoing `className` and delete it),
then iterate the remaining entries. -/
def resolveStyle (ev : String → Bool) (styles : StyleRule) (newProps : OutProps) :
    StyleMap × OutProps :=
  eachEntries ev (cssPre styles newProps).1 [] (cssPre styles newProps).2

/-- The node's `look` prop: `true` or a (possibly space-separated) selector
string. -/
inductive LookProp where
  | boolTrue
  | name (s : String)

/-- `(props.look === true ? '_default' : props.look).split(' ')`. -/
def looksOf : LookProp → List String
  | .boolTrue => jsSplit "_default" " "
  | .name s => jsSplit s " "

/-- The style portion of a node's props as consumed by `resolveLook`:
the `look` selector, the explicit `style` prop (`none` when absent or falsy)
and the incoming `className`. -/
structure NodeStyleProps where
  look : Option LookProp := none
  style : Option StyleMap := none
  className : Option String := none

/-- The look/style merge of `resolveLook`: starting from `newStyles = {}`,
each selected look present in the style table is resolved and assigned over
the accumulator (`assign(newStyles, resolveStyle(...))`), and finally the
explicit `style` prop, when present, is assigned last
(`if (props.style) assign(newStyles, props.style)`). -/
def resolveNodeStyles (ev : String → Bool) (table : List (String × StyleRule))
    (props : NodeStyleProps) : StyleMap × OutProps :=
  let np0 : OutProps := { className := props.className }
  let looked : StyleMap × OutProps :=
    match props.look with
    | some lk =>
      (looksOf lk).foldl
        (fun acc look =>
          match getRule' table look with
          | some rule =>
            let r := resolveStyle ev rule acc.2
            (assignSM acc.1 r.1, r.2)
          | none => acc)
        ([], np0)
    | none => ([], np0)
  match props.style with
  | some psty => (assignSM looked.1 psty, looked.2)
  | none => looked
where
  /-- Object lookup on the style table (`Component.styles.hasOwnProperty`). -/
  getRule' : List (String × StyleRule) → String → Option StyleRule
    | [], _ => none
    | (k, v) :: rest, key => if k = key then some v else getRule' rest key

/-- A member of the resolved children sequence at the point where pseudo
elements are attached: a node synthesized from a style value, or an opaque
already-resolved child. -/
inductive ChildNode where
  | el (r : RVal)
  | node (name : String)

/-- `newChildren` right before the pseudo-element block: an array, or the
single non-array value produced by resolving a lone child. -/
inductive ChildrenV where
  | arr (l : List ChildNode)
  | single (c : ChildNode)

/-- The `before` / `after` block of `resolveLook`: when `styles.before` or
`styles.after` is truthy, first coerce a non-array `newChildren` into a
one-element array; then `if (styles.before)` prepend it and delete the key,
`else if (styles.after)` append it and delete the key.  (Faithful to the
source: the `after` branch is an `else if`.) -/
def resolvePseudoElements (styles : StyleMap) (newChildren : ChildrenV) :
    StyleMap × ChildrenV :=
  let b := getSM styles "before"
  let a := getSM styles "after"
  if truthyR b || truthyR a then
    let ch : List ChildNode :=
      match newChildren with
      | .arr l => l
      | .single c => [c]
    if truthyR b then (removeSM styles "before", .arr (.el b :: ch))
    else if truthyR a then (removeSM styles "after", .arr (ch ++ [.el a]))
    else (styles, .arr ch)
  else (styles, newChildren)

/-! ## The substring pseudo-class handler (`substr.js`)

Text content is modelled as a list of characters.  `splitL` embeds the
JavaScript builtin `String.prototype.split` for a non-empty literal separator
(leftmost, non-overlapping); the pattern produced by `getPseudoExpression`
(a module outside the verified sources) is modelled from the spec as that
literal pattern — the spec's example pattern is the literal `"o"`. -/

/-- JavaScript `text.match(new RegExp(p, 'g'))` for a literal pattern `p`:
`null` when there is no occurrence, otherwise the array of the matched
substrings — one copy of `p` per occurrence. -/
def jsMatchLit (p cs : Str) : Option (List Str) :=
  let n := (splitL p cs).length - 1
  if n = 0 then none else some (List.replicate n p)

/-- One entry of the interleaved children array built by the handler: an
unmatched text run, or the `createElement('span', {style}, match)` wrapper
around a matched substring. -/
inductive Piece where
  | text (s : Str)
  | span (style : List (String × String)) (content : Str)
deriving DecidableEq, Repr

/-- The `matches.forEach(match => ...)` loop: destructure
`[left, ...right] = children.split(match)`, push the unmatched `left` and the
styled span around `match`, and continue on `right.join(match)`.  Returns the
pieces pushed and the final remainder (which the handler pushes last). -/
def substrLoop (style : List (String × String)) :
    List Str → Str → List Piece × Str
  | [], c => ([], c)
  | m :: ms, c =>
    let parts := splitL m c
    let left := parts.headD []
    let right := parts.tail
    let next := substrLoop style ms (List.intercalate m right)
    (.text left :: .span style m :: next.1, next.2)

/-- The substring pseudo-class handler for string content: the first
component is the replacement children array (`none` when `matches` is `null`
and the children are left untouched), the second the handler's return value —
always `false`. -/
def substr (pattern : Str) (style : List (String × String)) (children : Str) :
    Option (List Piece) × Bool :=
  match jsMatchLit pattern children with
  | none => (none, false)
  | some ms =>
    let r := substrLoop style ms children
    (some (r.1 ++ [.text r.2]), false)

/-- The text of the replacement children array read back in order, span
contents included. -/
def flattenPieces : List Piece → Str
  | [] => []
  | .text s :: rest => s ++ flattenPieces rest
  | .span _ m :: rest => m ++ flattenPieces rest

/-- The handler exactly as guarded in the source: `newProps.children` may be
any value; the body runs only `if (typeof children === 'string' || typeof
children === 'number')`.  For a string the handler runs; for a **number** the
guard passes but `children.match(...)` calls a method that does not exist on
numbers (`Number.prototype` has no `match`), which throws a TypeError; any
other value skips the body and returns `false` with the children untouched. -/
def substrHandlerJS (pattern : Str) (style : List (String × String)) :
    JSV → Except JSErr (Option (List Piece) × Bool)
  | .str s => .ok (substr pattern style s.toList)
  | .num _ => .error .typeError
  | _ => .ok (none, false)

/-! ## Supporting lemmas -/

/-- Setting a state entry makes it readable back. -/
theorem getState_setState_self (name : String) (key : JSV) (v : Bool) (st : Store) :
    getState name key (setState name v key st) = v := by
  induction st with
  | nil => simp [setState, getState]
  | cons hd tl ih =>
    obtain ⟨⟨n, k⟩, b⟩ := hd
    by_cases h : n = name ∧ k = key
    · simp [setState, getState, h]
    · simp only [setState, getState, if_neg h]
      simp [getState, h, ih]

/-- Writing a key makes it readable back. -/
theorem lookupSM_setSM_self (m : StyleMap) (k : String) (v : RVal) :
    lookupSM (setSM m k v) k = some v := by
  induction m with
  | nil => simp [setSM, lookupSM]
  | cons hd tl ih =>
    obtain ⟨k', v'⟩ := hd
    by_cases h : k' = k
    · simp [setSM, lookupSM, h]
    · simp [setSM, lookupSM, h, ih]

/-- Writing another key does not disturb a lookup. -/
theorem lookupSM_setSM_ne (m : StyleMap) (k k' : String) (v : RVal) (h : k' ≠ k) :
    lookupSM (setSM m k' v) k = lookupSM m k := by
  induction m with
  | nil => simp [setSM, lookupSM, h]
  | cons hd tl ih =>
    obtain ⟨k₀, v₀⟩ := hd
    by_cases h0 : k₀ = k'
    · subst h0
      simp [setSM, lookupSM, h]
    · simp only [setSM, if_neg h0]
      by_cases h1 : k₀ = k <;> simp [lookupSM, h1, ih]

/-- Assigning a source none of whose keys is `k` does not disturb `k`. -/
theorem lookupSM_assignSM_not_mem (s : StyleMap) (k : String) :
    ∀ m : StyleMap, k ∉ s.map Prod.fst → lookupSM (assignSM m s) k = lookupSM m k := by
  induction s with
  | nil => intro m _; rfl
  | cons hd tl ih =>
    intro m hk
    obtain ⟨k', v'⟩ := hd
    simp only [List.map_cons, List.mem_cons, not_or] at hk
    have : assignSM m ((k', v') :: tl) = assignSM (setSM m k' v') tl := rfl
    rw [this, ih _ hk.2, lookupSM_setSM_ne m k k' v' (fun h => hk.1 h.symm)]

/-- `Object.assign`-style merge: a key set in the source (with no duplicate
source keys) reads back with the source's value, whatever the target held. -/
theorem lookupSM_assignSM_of_nodup (s : StyleMap) (k : String) (v : RVal) :
    ∀ m : StyleMap, (s.map Prod.fst).Nodup → lookupSM s k = some v →
      lookupSM (assignSM m s) k = some v := by
  induction s with
  | nil => intro m _ h; simp [lookupSM] at h
  | cons hd tl ih =>
    intro m hnd hk
    obtain ⟨k', v'⟩ := hd
    simp only [List.map_cons, List.nodup_cons] at hnd
    have hstep : assignSM m ((k', v') :: tl) = assignSM (setSM m k' v') tl := rfl
    by_cases h : k' = k
    · subst h
      simp only [lookupSM, if_pos rfl] at hk
      obtain rfl : v' = v := Option.some.injEq _ _ ▸ hk
      rw [hstep, lookupSM_assignSM_not_mem tl k' _ hnd.1, lookupSM_setSM_self]
    · simp only [lookupSM, if_neg h] at hk
      rw [hstep]
      exact ih (setSM m k' v') hnd.2 hk

theorem except_bind_ok {ε α β : Type} (a : α) (f : α → Except ε β) :
    ((Except.ok a : Except ε α) >>= f) = f a := rfl

theorem except_bind_error {ε α β : Type} (e : ε) (f : α → Except ε β) :
    ((Except.error e : Except ε α) >>= f) = Except.error e := rfl

theorem count_append_single (l : List String) (k k' : String) :
    (l ++ [k]).count k' = l.count k' + (if k' = k then 1 else 0) := by
  by_cases h : k' = k <;> simp [List.count_append, List.count_singleton', h]

/-- The empty object is the count map of no processed children. -/
theorem emptyIM_eq_countMap : emptyIM = countMap [] := by
  funext t
  cases t <;> simp [emptyIM, countMap]

/-- `generateIndexMap` on an element child turns the count map of the
processed prefix into the count map of the prefix extended by its kind. -/
theorem generateIndexMap_elem (k : String) (acc : List String) :
    generateIndexMap (.elem k) (countMap acc) = .ok (countMap (acc ++ [k])) := by
  show (match countMap acc (some k) with
        | some n => (pure (fun u => if u = some k then some (n + 1) else countMap acc u) :
            Except JSErr IndexMap)
        | none => pure (fun u => if u = some k then some 1 else countMap acc u)) =
      .ok (countMap (acc ++ [k]))
  by_cases hz : acc.count k = 0
  · have hcm : countMap acc (some k) = none := by simp [countMap, hz]
    rw [hcm]
    show Except.ok _ = Except.ok _
    congr 1
    funext u
    match u with
    | none => simp [countMap]
    | some k' =>
      by_cases hk : k' = k
      · subst hk
        simp [countMap, count_append_single, hz]
      · simp [countMap, count_append_single, hk, Option.some.injEq]
  · have hcm : countMap acc (some k) = some (acc.count k) := by simp [countMap, hz]
    rw [hcm]
    show Except.ok _ = Except.ok _
    congr 1
    funext u
    match u with
    | none => simp [countMap]
    | some k' =>
      by_cases hk : k' = k
      · subst hk
        simp [countMap, count_append_single, hz]
      · simp [countMap, count_append_single, hk]

/-- Folding `generateIndexMap` over element children accumulates counts. -/
theorem foldlM_generateIndexMap_elems (ks : List String) :
    ∀ acc : List String,
      List.foldlM (fun m c => generateIndexMap c m) (countMap acc) (ks.map .elem) =
        .ok (countMap (acc ++ ks)) := by
  induction ks with
  | nil => intro acc; simp [List.foldlM_nil]; rfl
  | cons k rest ih =>
    intro acc
    simp only [List.map_cons, List.foldlM_cons]
    rw [generateIndexMap_elem, except_bind_ok, ih (acc ++ [k])]
    simp

/-- `generateTypeMap` over element children is the total count map. -/
theorem generateTypeMap_elems (ks : List String) :
    generateTypeMap (ks.map .elem) = .ok (countMap ks) := by
  unfold generateTypeMap
  rw [emptyIM_eq_countMap]
  simpa using foldlM_generateIndexMap_elems ks []

theorem countMap_append_self (acc : List String) (k : String) :
    countMap (acc ++ [k]) (some k) = some ((acc ++ [k]).count k) := by
  have h : (acc ++ [k]).count k ≠ 0 := by
    simp [count_append_single]
  simp [countMap, h]

/-- The children loop over element children produces exactly the
positional-metadata records of `elemOuts`. -/
theorem childLoop_elems (len : Nat) (all : List String) :
    ∀ (rest acc : List String) (i : Nat),
      childLoop len (countMap all) (rest.map .elem) i (countMap acc) =
        .ok (elemOuts len all i acc rest) := by
  intro rest
  induction rest with
  | nil => intro acc i; rfl
  | cons k rs ih =>
    intro acc i
    show childLoop len (countMap all) (JSChild.elem k :: rs.map .elem) i (countMap acc) = _
    unfold childLoop
    rw [if_pos (by rfl : truthyChild (.elem k) = true)]
    rw [generateIndexMap_elem, except_bind_ok]
    show (childLoop len (countMap all) (rs.map .elem) (i + 1) (countMap (acc ++ [k])) >>=
        fun tail => pure (.resolved (.elem k)
          { index := i + 1, length := len,
            typeIndex := countMap (acc ++ [k]) (some k),
            typeIndexLength := countMap all (some k) } :: tail)) =
      .ok (elemOuts len all i acc (k :: rs))
    rw [ih (acc ++ [k]) (i + 1), except_bind_ok, countMap_append_self]
    rfl

/-- Reading entry `j` of the `elemOuts` specification. -/
theorem elemOuts_get (len : Nat) (all : List String) :
    ∀ (rest : List String) (i : Nat) (acc : List String) (j : Nat) (hj : j < rest.length),
      (elemOuts len all i acc rest)[j]? =
        some (.resolved (.elem rest[j])
          { index := i + j + 1, length := len,
            typeIndex := some ((acc ++ rest.take (j + 1)).count rest[j]),
            typeIndexLength := countMap all (some rest[j]) }) := by
  intro rest
  induction rest with
  | nil => intro i acc j hj; simp at hj
  | cons k rs ih =>
    intro i acc j hj
    match j with
    | 0 => simp [elemOuts]
    | j' + 1 =>
      have hj' : j' < rs.length := by simpa using hj
      have hrec := ih (i + 1) (acc ++ [k]) j' hj'
      simp only [elemOuts, List.getElem?_cons_succ]
      rw [hrec]
      have hidx : i + 1 + j' + 1 = i + (j' + 1) + 1 := by omega
      have htake : (acc ++ [k]) ++ rs.take (j' + 1) = acc ++ (k :: rs).take (j' + 1 + 1) := by
        simp [List.take_succ_cons]
      simp only [List.getElem_cons_succ, hidx, htake]

theorem countMap_of_mem {ks : List String} {k : String} (h : k ∈ ks) :
    countMap ks (some k) = some (ks.count k) := by
  have : ks.count k ≠ 0 := by
    have := List.count_pos_iff.mpr h
    omega
  simp [countMap, this]

/-- The children-loop invariant behind C10: whatever the children, whenever
position `j` of the loop's output (started at running index `i`) records a
recursive resolution, its metadata carries `index = i + j + 1` and
`length = len`. -/
theorem childLoop_index (len : Nat) (T : IndexMap) :
    ∀ (cs : List JSChild) (i : Nat) (m : IndexMap) (out : List OutChild),
      childLoop len T cs i m = .ok out →
      ∀ (j : Nat) (c : JSChild) (ci : ChildIndex),
        out[j]? = some (.resolved c ci) → ci.index = i + j + 1 ∧ ci.length = len := by
  intro cs
  induction cs with
  | nil =>
    intro i m out h j c ci hj
    have : out = [] := by
      have h' : (Except.ok [] : Except JSErr (List OutChild)) = .ok out := h
      exact (Except.ok.injEq _ _ ▸ h').symm
    subst this
    simp at hj
  | cons child rest ih =>
    intro i m out h j c ci hj
    by_cases ht : truthyChild child
    · unfold childLoop at h
      rw [if_pos ht] at h
      cases h1 : generateIndexMap child m with
      | error e => rw [h1, except_bind_error] at h; cases h
      | ok m' =>
        rw [h1, except_bind_ok] at h
        cases h2 : getChildType child with
        | error e => rw [h2, except_bind_error] at h; cases h
        | ok t =>
          rw [h2, except_bind_ok] at h
          cases h3 : childLoop len T rest (i + 1) m' with
          | error e => rw [h3, except_bind_error] at h; cases h
          | ok tail =>
            rw [h3, except_bind_ok] at h
            have hout : OutChild.resolved child
                { index := i + 1, length := len,
                  typeIndex := m' t, typeIndexLength := T t } :: tail = out :=
              Except.ok.injEq _ _ ▸ h
            subst hout
            match j with
            | 0 =>
              simp only [List.getElem?_cons_zero, Option.some.injEq] at hj
              cases hj
              exact ⟨rfl, rfl⟩
            | j' + 1 =>
              simp only [List.getElem?_cons_succ] at hj
              have := ih (i + 1) m' tail h3 j' c ci hj
              exact ⟨by omega, this.2⟩
    · unfold childLoop at h
      rw [if_neg ht] at h
      cases child with
      | undef => cases h
      | elem k => simp [truthyChild] at ht
      | _ => ?_
      all_goals
        cases h3 : childLoop len T rest (i + 1) m with
        | error e => rw [h3, except_bind_error] at h; cases h
        | ok tail =>
          rw [h3, except_bind_ok] at h
          have hout : OutChild.kept _ :: tail = out := Except.ok.injEq _ _ ▸ h
          subst hout
          match j with
          | 0 => simp at hj
          | j' + 1 =>
            simp only [List.getElem?_cons_succ] at hj
            have := ih (i + 1) m tail h3 j' c ci hj
            exact ⟨by omega, this.2⟩

theorem intercalate_single (p a : Str) : List.intercalate p [a] = a := by
  simp [List.intercalate]

theorem intercalate_cons₂ (p a : Str) {l : List Str} (h : l ≠ []) :
    List.intercalate p (a :: l) = a ++ p ++ List.intercalate p l := by
  obtain ⟨b, t, rfl⟩ := List.exists_cons_of_ne_nil h
  simp [List.intercalate, List.append_assoc]

theorem splitLF_nil (p : Str) : ∀ f, splitLF p f ([] : Str) = [[]]
  | 0 => rfl
  | f + 1 => by
    have hc : ¬((p.isPrefixOf ([] : Str)) = true ∧ p ≠ []) := by
      rintro ⟨hpre, hne⟩
      rw [List.isPrefixOf_iff_prefix, List.prefix_nil] at hpre
      exact hne hpre
    simp only [splitLF]
    rw [if_neg hc]

/-- One unit of fuel per consumed character is irrelevant beyond the input
length. -/
theorem splitLF_fuel (p : Str) :
    ∀ (f₁ f₂ : Nat) (cs : Str), cs.length ≤ f₁ → cs.length ≤ f₂ →
      splitLF p f₁ cs = splitLF p f₂ cs := by
  intro f₁
  induction f₁ with
  | zero =>
    intro f₂ cs h1 _
    have : cs = [] := List.length_eq_zero.mp (Nat.le_zero.mp h1)
    subst this
    rw [splitLF_nil, splitLF_nil]
  | succ f ih =>
    intro f₂ cs h1 h2
    cases cs with
    | nil => rw [splitLF_nil, splitLF_nil]
    | cons c rest =>
      have hf2 : ∃ g, f₂ = g + 1 := by
        cases f₂ with
        | zero => simp at h2
        | succ g => exact ⟨g, rfl⟩
      obtain ⟨g, rfl⟩ := hf2
      have hp1 : p ≠ [] → 1 ≤ p.length := by
        intro hp
        cases p with
        | nil => exact absurd rfl hp
        | cons _ _ => simp
      by_cases hc : (p.isPrefixOf (c :: rest)) = true ∧ p ≠ []
      · simp only [splitLF]
        rw [if_pos hc, if_pos hc]
        congr 1
        apply ih
        · have := hp1 hc.2
          simp only [List.length_drop, List.length_cons]
          simp only [List.length_cons] at h1
          omega
        · have := hp1 hc.2
          simp only [List.length_drop, List.length_cons]
          simp only [List.length_cons] at h2
          omega
      · simp only [splitLF]
        rw [if_neg hc, if_neg hc]
        have hrest : splitLF p f rest = splitLF p g rest := by
          apply ih
          · simp only [List.length_cons] at h1; omega
          · simp only [List.length_cons] at h2; omega
        rw [hrest]

theorem splitL_nil (p : Str) : splitL p [] = [[]] := rfl

/-- Recurrence of `splitL` when the separator heads the input. -/
theorem splitL_pref {p cs : Str} (hp : p ≠ []) (hpre : (p.isPrefixOf cs) = true) :
    splitL p cs = [] :: splitL p (cs.drop p.length) := by
  have hcs : cs ≠ [] := by
    rintro rfl
    rw [List.isPrefixOf_iff_prefix, List.prefix_nil] at hpre
    exact hp hpre
  obtain ⟨c, rest, rfl⟩ := List.exists_cons_of_ne_nil hcs
  have hp1 : 1 ≤ p.length := by
    cases p with
    | nil => exact absurd rfl hp
    | cons _ _ => simp
  show splitLF p (rest.length + 1) (c :: rest) = _
  simp only [splitLF]
  rw [if_pos ⟨hpre, hp⟩]
  congr 1
  apply splitLF_fuel
  · simp only [List.length_drop, List.length_cons]
    omega
  · exact Nat.le_refl _

/-- Recurrence of `splitL` when the separator does not head the input. -/
theorem splitL_not_pref {p : Str} {c : Char} {rest : Str}
    (h : ¬((p.isPrefixOf (c :: rest)) = true ∧ p ≠ [])) :
    splitL p (c :: rest) =
      (match splitL p rest with
       | [] => [[c]]
       | h :: t => (c :: h) :: t) := by
  show splitLF p (rest.length + 1) (c :: rest) = _
  simp only [splitLF]
  rw [if_neg h]
  rfl

theorem splitLF_ne_nil (p : Str) : ∀ (f : Nat) (cs : Str), splitLF p f cs ≠ [] := by
  intro f
  cases f with
  | zero => intro cs; simp [splitLF]
  | succ f =>
    intro cs
    simp only [splitLF]
    split
    · simp
    · cases cs with
      | nil => simp
      | cons c rest =>
        cases hs : splitLF p f rest with
        | nil => simp [hs]
        | cons hd t => simp [hs]

theorem splitL_ne_nil (p cs : Str) : splitL p cs ≠ [] := splitLF_ne_nil p _ cs

/-- Joining the parts of `splitL` with the separator restores the input. -/
theorem intercalate_splitL (p : Str) (hp : p ≠ []) :
    ∀ (n : Nat) (cs : Str), cs.length ≤ n → List.intercalate p (splitL p cs) = cs := by
  intro n
  induction n with
  | zero =>
    intro cs h
    have : cs = [] := List.length_eq_zero.mp (Nat.le_zero.mp h)
    subst this
    rw [splitL_nil, intercalate_single]
  | succ n ih =>
    intro cs h
    by_cases hpre : (p.isPrefixOf cs) = true
    · have hcs : cs ≠ [] := by
        rintro rfl
        rw [List.isPrefixOf_iff_prefix, List.prefix_nil] at hpre
        exact hp hpre
      have hp1 : 1 ≤ p.length := by
        cases p with
        | nil => exact absurd rfl hp
        | cons _ _ => simp
      have hcs1 : 1 ≤ cs.length := by
        cases cs with
        | nil => exact absurd rfl hcs
        | cons _ _ => simp
      rw [splitL_pref hp hpre,
        intercalate_cons₂ p [] (splitL_ne_nil p (cs.drop p.length)),
        List.nil_append,
        ih (cs.drop p.length) (by simp only [List.length_drop]; omega)]
      obtain ⟨t, rfl⟩ := List.isPrefixOf_iff_prefix.mp hpre
      rw [List.drop_left]
    · cases cs with
      | nil => rw [splitL_nil, intercalate_single]
      | cons c rest =>
        have hcond : ¬((p.isPrefixOf (c :: rest)) = true ∧ p ≠ []) :=
          fun hh => hpre hh.1
        have hrest : List.intercalate p (splitL p rest) = rest :=
          ih rest (by simp only [List.length_cons] at h; omega)
        rw [splitL_not_pref hcond]
        cases hs : splitL p rest with
        | nil => exact absurd hs (splitL_ne_nil p rest)
        | cons hd t =>
          rw [hs] at hrest
          cases t with
          | nil =>
            show List.intercalate p [c :: hd] = c :: rest
            rw [intercalate_single]
            rw [intercalate_single] at hrest
            rw [hrest]
          | cons t0 ts =>
            show List.intercalate p ((c :: hd) :: t0 :: ts) = c :: rest
            rw [intercalate_cons₂ p _ (by simp : (t0 :: ts : List Str) ≠ [])]
            rw [intercalate_cons₂ p hd (by simp : (t0 :: ts : List Str) ≠ [])] at hrest
            rw [List.cons_append, List.cons_append, hrest]

/-- The tail of a `splitL` decomposition re-splits to itself: re-splitting
the joined remainder after the first separator yields exactly the remaining
parts. -/
theorem splitL_tail_canonical (p : Str) (hp : p ≠ []) :
    ∀ cs : Str, (splitL p cs).tail ≠ [] →
      splitL p (List.intercalate p (splitL p cs).tail) = (splitL p cs).tail := by
  intro cs
  induction cs with
  | nil =>
    intro ht
    rw [splitL_nil] at ht
    simp at ht
  | cons c rest ih =>
    intro ht
    by_cases hpre : (p.isPrefixOf (c :: rest)) = true
    · rw [splitL_pref hp hpre]
      simp only [List.tail_cons]
      rw [intercalate_splitL p hp (((c :: rest).drop p.length).length) _ (Nat.le_refl _)]
    · have hcond : ¬((p.isPrefixOf (c :: rest)) = true ∧ p ≠ []) :=
        fun hh => hpre hh.1
      rw [splitL_not_pref hcond] at ht ⊢
      cases hs : splitL p rest with
      | nil => exact absurd hs (splitL_ne_nil p rest)
      | cons hd t =>
        rw [hs] at ht
        simp only [List.tail_cons] at ht ⊢
        have ih' := ih
        rw [hs] at ih'
        simp only [List.tail_cons] at ih'
        exact ih' ht

theorem flattenPieces_append (a b : List Piece) :
    flattenPieces (a ++ b) = flattenPieces a ++ flattenPieces b := by
  induction a with
  | nil => rfl
  | cons hd t ih => cases hd <;> simp [flattenPieces, ih, List.append_assoc]

/-- The invariant of the `matches.forEach` loop: with one match per
occurrence of the pattern still to process, the pushed pieces followed by the
final remainder spell exactly the current text. -/
theorem substrLoop_flatten (p : Str) (hp : p ≠ []) (st : List (String × String)) :
    ∀ (n : Nat) (cs : Str), (splitL p cs).length = n + 1 →
      flattenPieces (substrLoop st (List.replicate n p) cs).1 ++
        (substrLoop st (List.replicate n p) cs).2 = cs := by
  intro n
  induction n with
  | zero =>
    intro cs _
    simp [substrLoop, flattenPieces]
  | succ n ih =>
    intro cs h
    cases hs : splitL p cs with
    | nil => exact absurd hs (splitL_ne_nil p cs)
    | cons left right =>
      have hrlen : right.length = n + 1 := by
        rw [hs] at h
        simpa using h
      have hrne : right ≠ [] := by
        intro h0
        rw [h0] at hrlen
        simp at hrlen
      have hcan : splitL p (List.intercalate p right) = right := by
        have hc := splitL_tail_canonical p hp cs
        rw [hs] at hc
        simpa using hc (by simpa using hrne)
      have hjoin : List.intercalate p (splitL p cs) = cs :=
        intercalate_splitL p hp cs.length cs (Nat.le_refl _)
      rw [hs, intercalate_cons₂ p left hrne] at hjoin
      have hih : flattenPieces (substrLoop st (List.replicate n p)
            (List.intercalate p right)).1 ++
          (substrLoop st (List.replicate n p) (List.intercalate p right)).2 =
          List.intercalate p right := by
        apply ih
        rw [hcan, hrlen]
      rw [List.replicate_succ]
      simp only [substrLoop, hs, List.headD_cons, List.tail_cons, flattenPieces]
      simp only [List.append_assoc] at hjoin ⊢
      rw [hih]
      exact hjoin

/-! ## Claims -/

/-- **C1 (confirmed).**  `resolveLook` merges the explicit `style` prop last
(`if (props.style) assign(newStyles, props.style)`), so for every property it
sets — whatever look table, however deeply nested the conditional rules that
produced competing values, and whatever the condition oracle decided — the
final style map holds the explicit `style` prop's value. -/
theorem claim_C1_style_prop_wins (ev : String → Bool)
    (table : List (String × StyleRule)) (props : NodeStyleProps)
    (psty : StyleMap) (k : String) (v : RVal)
    (hst : props.style = some psty)
    (hnd : (psty.map Prod.fst).Nodup)
    (hk : lookupSM psty k = some v) :
    lookupSM (resolveNodeStyles ev table props).1 k = some v := by
  unfold resolveNodeStyles
  rw [hst]
  exact lookupSM_assignSM_of_nodup psty k v _ hnd hk

/-- Witness for C1: a rule setting `color: red` at top level and `green` /
`purple` under nested conditions, against an explicit `style` prop of
`color: blue` — the resolved node's `color` is `blue`. -/
theorem claim_C1_witness :
    lookupSM (resolveNodeStyles (fun _ => true)
      [("box", [("color", RuleVal.plain "red"),
                (":hover", RuleVal.nested
                  [("color", RuleVal.plain "green"),
                   (":active", RuleVal.nested
                     [("color", RuleVal.plain "purple")])])])]
      { look := some (.name "box"),
        style := some [("color", RVal.prim "blue")] }).1 "color" =
      some (RVal.prim "blue") :=
  claim_C1_style_prop_wins (fun _ => true) _ _ [("color", RVal.prim "blue")]
    "color" (RVal.prim "blue") rfl (by simp) rfl

/-- **C2 (confirmed).**  For an array of sibling element children with the
given kinds, the positional metadata built for the child at 0-based position
`i` reports `typeIndex` equal to the 1-based running count of its kind over
positions `0..i` and `typeIndexLength` (the spec's `typeIndexCount`) equal to
the total count of that kind among the siblings. -/
theorem claim_C2_positional_metadata (kinds : List String) (i : Nat)
    (h : i < kinds.length) :
    ∃ out, resolveChildren (kinds.map JSChild.elem) = .ok out ∧
      out[i]? = some (.resolved (.elem kinds[i])
        { index := i + 1, length := kinds.length,
          typeIndex := some ((kinds.take (i + 1)).count kinds[i]),
          typeIndexLength := some (kinds.count kinds[i]) }) := by
  refine ⟨elemOuts kinds.length kinds 0 [] kinds, ?_, ?_⟩
  · unfold resolveChildren
    rw [generateTypeMap_elems, except_bind_ok, emptyIM_eq_countMap, List.length_map]
    exact childLoop_elems kinds.length kinds kinds [] 0
  · rw [elemOuts_get kinds.length kinds kinds 0 [] i h]
    rw [countMap_of_mem (kinds.getElem_mem h)]
    simp

/-- Witness for C2: siblings of kinds `[x, y, x, z]`, child at 0-based index
2 — `typeIndex = 2`, total count `2` (and 1-based `index = 3` of `4`). -/
theorem claim_C2_witness :
    ∃ out, resolveChildren (["x", "y", "x", "z"].map JSChild.elem) = .ok out ∧
      out[2]? = some (.resolved (.elem "x")
        { index := 3, length := 4, typeIndex := some 2, typeIndexLength := some 2 }) :=
  claim_C2_positional_metadata ["x", "y", "x", "z"] 2 (by decide)

/-- **C10 (confirmed).**  For every children array, whenever resolution
records a recursive call for the child at 0-based position `j`, the
positional metadata passed to it has `index = j + 1` (1-based) and
`length` equal to the sibling count. -/
theorem claim_C10_one_based_index (children : List JSChild) (out : List OutChild)
    (j : Nat) (c : JSChild) (ci : ChildIndex)
    (hres : resolveChildren children = .ok out)
    (hj : out[j]? = some (.resolved c ci)) :
    ci.index = j + 1 ∧ ci.length = children.length := by
  unfold resolveChildren at hres
  cases hT : generateTypeMap children with
  | error e => rw [hT, except_bind_error] at hres; cases hres
  | ok T =>
    rw [hT, except_bind_ok] at hres
    have := childLoop_index children.length T children 0 emptyIM out hres j c ci hj
    exact ⟨by omega, this.2⟩

/-- Witness for C10 at the concrete siblings `[x, y]`, position 1. -/
theorem claim_C10_witness :
    ChildIndex.index ⟨2, 2, some 1, some 1⟩ = 1 + 1 ∧
    ChildIndex.length ⟨2, 2, some 1, some 1⟩ =
      [JSChild.elem "x", JSChild.elem "y"].length :=
  claim_C10_one_based_index [JSChild.elem "x", JSChild.elem "y"]
    [.resolved (.elem "x") ⟨1, 2, some 1, some 1⟩,
     .resolved (.elem "y") ⟨2, 2, some 1, some 1⟩]
    1 (.elem "y") ⟨2, 2, some 1, some 1⟩ rfl rfl

/-- **C7, claim as stated, refuted.**  The claim asserts the identity key
equals `node.key` whenever `node.key` is not `null`/`undefined`, in
particular for a defined but falsy key such as the empty string.  On the
source, the key is computed with `||`, which skips every falsy value: for an
element with `key = ''` and `ref = 'r'`, the identity key is `'r'`, not
`''`. -/
theorem claim_C7_counterexample :
    definedJS (JSV.str "") ∧
    elemKey ⟨JSV.str "", JSV.str "r"⟩ = JSV.str "r" ∧
    JSV.str "r" ≠ JSV.str "" := by
  decide

/-- **C7, amended.**  The identity key used for per-node interaction state is
`node.key` if it is truthy, otherwise `node.ref` if that is truthy, otherwise
the string `"root"`; a defined but falsy `key` (empty string, `0`) falls
through to `ref` or `"root"`. -/
theorem claim_C7_amended (e : Elem) :
    elemKey e =
      (if truthy e.key then e.key
       else if truthy e.ref then e.ref
       else JSV.str "root") := rfl

/-- **C3 (code bug).**  After activating keys `'a'` and `'b'` (each push of
the `active` handler's `onMouseDown` callback records the key), the global
mouse-up release handler should clear `'active'` for both keys.  The loop
reads `_lastActiveElements[0]` but `Array.prototype.pop` removes the *last*
element, so it clears `'a'` twice, never clears `'b'`, and still ends with an
empty list: evaluating the model shows `'b'` remains `true`. -/
theorem claim_C3_release_sweep :
    (getState "active" (JSV.str "a")
      (onMouseUp (activeMouseDown ⟨JSV.str "b", JSV.nul⟩
        (activeMouseDown ⟨JSV.str "a", JSV.nul⟩ Owner.init))).store = false) ∧
    (getState "active" (JSV.str "b")
      (onMouseUp (activeMouseDown ⟨JSV.str "b", JSV.nul⟩
        (activeMouseDown ⟨JSV.str "a", JSV.nul⟩ Owner.init))).store = true) ∧
    (onMouseUp (activeMouseDown ⟨JSV.str "b", JSV.nul⟩
      (activeMouseDown ⟨JSV.str "a", JSV.nul⟩ Owner.init))).lastActiveElements = [] := by
  decide

/-- **C6 (confirmed).**  Every evaluation of the `hover` handler writes the
`onMouseEnter` / `onMouseLeave` listeners into the outgoing props — for every
current store state, so also when the stored `'hover'` state is `false`;
firing the registered enter (resp. leave) listener sets (resp. clears) the
stored `'hover'` state for the element key; and the handler returns the style
fragment iff the stored `'hover'` state for the key is `true` at evaluation
time. -/
theorem claim_C6_hover_handler (styles : List (String × String))
    (o : Owner) (e : Elem) (p : HProps) :
    ((hover styles o e p).1.onMouseEnter =
       some ⟨elemKey e, "onMouseEnter", .setCB "hover" true⟩) ∧
    ((hover styles o e p).1.onMouseLeave =
       some ⟨elemKey e, "onMouseLeave", .setCB "hover" false⟩) ∧
    (∀ o' : Owner, getState "hover" (elemKey e)
       (runCB ⟨elemKey e, "onMouseEnter", .setCB "hover" true⟩ o').store = true) ∧
    (∀ o' : Owner, getState "hover" (elemKey e)
       (runCB ⟨elemKey e, "onMouseLeave", .setCB "hover" false⟩ o').store = false) ∧
    ((hover styles o e p).2 = some styles ↔
       getState "hover" (elemKey e) o.store = true) := by
  refine ⟨rfl, rfl,
    fun o' => getState_setState_self "hover" (elemKey e) true o'.store,
    fun o' => getState_setState_self "hover" (elemKey e) false o'.store, ?_⟩
  unfold hover
  by_cases h : getState "hover" (elemKey e) o.store <;> simp [h]

/-- **C5 (code bug).**  `addPseudoElement` does synthesize a child from a
resolved `before`/`after` body (remaining properties as its style, the
`content` entry as its text payload, no residual `content` key), and a lone
`before` entry is removed from the style map and prepended (a single child
being coerced into a one-element array).  But the `after` branch is an
`else if`: when *both* `before` and `after` entries are present, the `after`
entry is neither removed from the final style map nor appended as a child —
refuting the claim's "each such entry". -/
theorem claim_C5_pseudo_elements :
    (addPseudoElement [("content", RVal.prim "★"), ("color", RVal.prim "red")] =
       RVal.spanEl [("color", RVal.prim "red")] (.text "★")) ∧
    (resolvePseudoElements [("before", RVal.spanEl [] (.text "★"))] (.arr []) =
       ([], .arr [.el (RVal.spanEl [] (.text "★"))])) ∧
    (resolvePseudoElements
        [("before", RVal.spanEl [] (.text "B")), ("after", RVal.spanEl [] (.text "A"))]
        (.single (.node "child")) =
       ([("after", RVal.spanEl [] (.text "A"))],
        .arr [.el (RVal.spanEl [] (.text "B")), .node "child"])) :=
  ⟨rfl, rfl, rfl⟩

/-- **C8 (code bug).**  The claim says an `undefined` child is dropped with a
diagnostic warning and resolution completes, while `null` / `false` / `''` /
`0` children are preserved unresolved.  In the source, `generateTypeMap`
reads `child.type` on every entry before the loop, so an `undefined` — or
even a `null` — child throws a TypeError before any warning can fire (and
the warning itself reads the undeclared identifier `oldChidren`, a
ReferenceError).  Only the falsy non-nullish children are in fact
preserved. -/
theorem claim_C8_undefined_child :
    (resolveChildren [JSChild.undef] = .error .typeError) ∧
    (resolveChildren [JSChild.elem "x", JSChild.nul] = .error .typeError) ∧
    (resolveChildren [JSChild.elem "x", JSChild.boolC false, JSChild.text "", JSChild.num 0] =
       .ok [.resolved (.elem "x") ⟨1, 4, some 1, some 1⟩,
            .kept (.boolC false), .kept (.text ""), .kept (.num 0)]) :=
  ⟨rfl, rfl, rfl⟩

/-- **C9 (code bug).**  String children never make the substring handler
fail, but a numeric children value does: the `typeof children === 'number'`
guard admits it and the very next line calls `children.match`, a method that
does not exist on numbers — a TypeError, refuting "a numeric children value
never causes the handler to fail". -/
theorem claim_C9_numeric_children :
    (substrHandlerJS "o".toList [] (JSV.num 42) = .error .typeError) ∧
    (∀ (s : String) (pat : Str) (st : List (String × String)),
       ∃ r, substrHandlerJS pat st (JSV.str s) = .ok r) :=
  ⟨rfl, fun s pat st => ⟨substr pat st s.toList, rfl⟩⟩

/-- **C4 (confirmed).**  The substring handler: (1) on `"hello world"` with
pattern `"o"` it replaces the children with exactly
`["hell", <span>o</span>, " w", <span>o</span>, "rld"]`; (2) its return
value is `false` whether or not matches occur; (3) with no match the
children are left untouched; (4) whenever it does replace the children, the
interleaved unmatched-text / styled-span sequence spells the original text
in order. -/
theorem claim_C4_substring_decoration :
    (substr "o".toList [("color", "red")] "hello world".toList =
       (some [.text "hell".toList, .span [("color", "red")] "o".toList,
              .text " w".toList, .span [("color", "red")] "o".toList,
              .text "rld".toList], false)) ∧
    (∀ (pat : Str) (st : List (String × String)) (c : Str),
       (substr pat st c).2 = false) ∧
    (∀ (pat : Str) (st : List (String × String)) (c : Str),
       jsMatchLit pat c = none → (substr pat st c).1 = none) ∧
    (∀ (pat : Str) (st : List (String × String)) (c : Str) (ps : List Piece),
       pat ≠ [] → (substr pat st c).1 = some ps → flattenPieces ps = c) := by
  refine ⟨by decide, ?_, ?_, ?_⟩
  · intro pat st c
    unfold substr
    cases h : jsMatchLit pat c <;> simp
  · intro pat st c h
    simp [substr, h]
  · intro pat st c ps hpat hps
    unfold substr at hps
    cases h : jsMatchLit pat c with
    | none => rw [h] at hps; cases hps
    | some ms =>
      rw [h] at hps
      simp only [Option.some.injEq] at hps
      unfold jsMatchLit at h
      by_cases hz : (splitL pat c).length - 1 = 0
      · rw [if_pos hz] at h; cases h
      · rw [if_neg hz] at h
        have hms : ms = List.replicate ((splitL pat c).length - 1) pat :=
          (Option.some.injEq _ _ ▸ h).symm
        subst hms
        subst hps
        rw [flattenPieces_append]
        have hlen : (splitL pat c).length = ((splitL pat c).length - 1) + 1 := by
          have := splitL_ne_nil pat c
          have : 0 < (splitL pat c).length := List.length_pos.mpr this
          omega
        have hloop := substrLoop_flatten pat hpat st ((splitL pat c).length - 1) c
          (by omega)
        simpa [flattenPieces] using hloop

/-- Witness for C4: the no-match case leaves the children of `"abc"` under
pattern `"z"` untouched, and the matched case for `"hello world"` / `"o"`
flattens back to the original text. -/
theorem claim_C4_witness :
    ((substr "z".toList [] "abc".toList).1 = none) ∧
    (flattenPieces [.text "hell".toList, .span [("color", "red")] "o".toList,
        .text " w".toList, .span [("color", "red")] "o".toList,
        .text "rld".toList] = "hello world".toList) :=
  ⟨claim_C4_substring_decoration.2.2.1 "z".toList [] "abc".toList (by decide),
   claim_C4_substring_decoration.2.2.2 "o".toList [("color", "red")]
     "hello world".toList
     [.text "hell".toList, .span [("color", "red")] "o".toList,
      .text " w".toList, .span [("color", "red")] "o".toList,
      .text "rld".toList] (by decide) (by decide)⟩

end ReactLook
